import Mathlib

/-!
Verification of the PrivBatch agent core (`src/agent/src/`): the Merkle
batch-commitment pipeline (`merkle.py`), the EIP-712 signing utilities
(`signer.py`) and the tick-range optimizer (`optimizer.py`).

Bytes are modelled as `List Nat` (one entry per byte).  The keccak-256
primitive is kept abstract: every Merkle-level definition is parametric in
the hash function `K : List Nat → List Nat`, exactly as `merkle.py` is
parametric in `Web3.keccak` (all properties proved here hold for every
choice of `K`, hence in particular for keccak-256).
-/

namespace PrivBatch

/-- A byte string: one `Nat` per byte (values < 256 in the intended use). -/
abbrev Bytes := List Nat

/-- Python's `<=` on `bytes`: unsigned byte-lexicographic order
(shorter prefix compares as smaller). -/
def bytesLE : Bytes → Bytes → Bool
  | [], _ => true
  | _ :: _, [] => false
  | a :: a2, b :: b2 => if a < b then true else if b < a then false else bytesLE a2 b2

/-- `merkle._hash_pair`: hash two nodes, sorting them first
(`if a <= b: keccak(a + b) else: keccak(b + a)`). -/
def hash_pair (K : Bytes → Bytes) (a b : Bytes) : Bytes :=
  if bytesLE a b then K (a ++ b) else K (b ++ a)

/-- One pass of `MerkleTree._build`'s inner loop
(`for i in range(0, n, 2)`): pair up adjacent nodes, hash full pairs,
carry an odd trailing node forward unchanged. -/
def nextLayer (K : Bytes → Bytes) : List Bytes → List Bytes
  | [] => []
  | [a] => [a]
  | a :: b :: rest => hash_pair K a b :: nextLayer K rest

theorem nextLayer_length (K : Bytes → Bytes) :
    ∀ l : List Bytes, (nextLayer K l).length = (l.length + 1) / 2
  | [] => rfl
  | [_] => by simp [nextLayer]
  | _ :: _ :: rest => by
    simp only [nextLayer, List.length_cons, nextLayer_length K rest]
    omega

/-- `MerkleTree._build`'s `while len(layer) > 1` loop, with an explicit
fuel bound on the number of iterations (any fuel at least the current
layer length behaves identically, see `buildLayersF_congr`). -/
def buildLayersF (K : Bytes → Bytes) : Nat → List Bytes → List (List Bytes)
  | 0, l => [l]
  | fuel + 1, l =>
    if l.length ≤ 1 then [l]
    else l :: buildLayersF K fuel (nextLayer K l)

/-- `MerkleTree._build`: the list of layers, bottom (the leaves) first. -/
def buildLayers (K : Bytes → Bytes) (l : List Bytes) : List (List Bytes) :=
  buildLayersF K l.length l

theorem buildLayersF_congr (K : Bytes → Bytes) :
    ∀ (fuel1 fuel2 : Nat) (l : List Bytes), l.length ≤ fuel1 → l.length ≤ fuel2 →
      buildLayersF K fuel1 l = buildLayersF K fuel2 l
  | 0, 0, l, _, _ => rfl
  | 0, fuel2 + 1, l, h1, _ => by
    have : l.length ≤ 1 := by omega
    simp [buildLayersF, this]
  | fuel1 + 1, 0, l, _, h2 => by
    have : l.length ≤ 1 := by omega
    simp [buildLayersF, this]
  | fuel1 + 1, fuel2 + 1, l, h1, h2 => by
    by_cases hs : l.length ≤ 1
    · simp [buildLayersF, hs]
    · have hlen : (nextLayer K l).length = (l.length + 1) / 2 := nextLayer_length K l
      simp only [buildLayersF, if_neg hs]
      rw [buildLayersF_congr K fuel1 fuel2 (nextLayer K l) (by omega) (by omega)]

/-- Errors raised by `MerkleTree` (`ValueError` on an empty batch,
`IndexError` on a bad proof index; the spec calls them `EmptyBatchError`
and `IndexOutOfRangeError`). -/
inductive MerkleError where
  | emptyBatch : MerkleError
  | indexOutOfRange : MerkleError
deriving DecidableEq, Repr

/-- The `MerkleTree` object's state after `__init__`: the stored leaf
list and the built layers. -/
structure MerkleTree where
  leaves : List Bytes
  layers : List (List Bytes)
deriving DecidableEq, Repr

/-- `MerkleTree.__init__`: raise on an empty batch, otherwise store the
leaves and build the layers. -/
def mkTree (K : Bytes → Bytes) (leaves : List Bytes) : Except MerkleError MerkleTree :=
  if leaves.isEmpty then .error .emptyBatch
  else .ok { leaves := leaves, layers := buildLayers K leaves }

/-- `MerkleTree.root`: `self.layers[-1][0]`. -/
def treeRoot (t : MerkleTree) : Bytes :=
  (t.layers.getLastD []).getD 0 []

/-- Root of the tree built from `l` (the composition `MerkleTree(l).root`). -/
def rootOfLeaves (K : Bytes → Bytes) (l : List Bytes) : Bytes :=
  ((buildLayers K l).getLastD []).getD 0 []

/-- One iteration of `get_proof`'s loop body: the 0- or 1-element list of
siblings appended for one layer at position `idx`. -/
def proofStep (layer : List Bytes) (idx : Nat) : List Bytes :=
  if idx % 2 = 0 then
    if idx + 1 < layer.length then [layer.getD (idx + 1) []] else []
  else
    [layer.getD (idx - 1) []]

/-- The loop of `get_proof` over `self.layers[:-1]`, halving the index at
each layer (`idx //= 2`). -/
def proofFold : List (List Bytes) → Nat → List Bytes
  | [], _ => []
  | layer :: rest, idx => proofStep layer idx ++ proofFold rest (idx / 2)

/-- `MerkleTree.get_proof`: bounds check (`index < 0 or index >= len(self.leaves)`
raises `IndexError`), then the sibling-collecting loop. -/
def get_proof (t : MerkleTree) (i : Int) : Except MerkleError (List Bytes) :=
  if i < 0 ∨ (t.leaves.length : Int) ≤ i then .error .indexOutOfRange
  else .ok (proofFold t.layers.dropLast i.toNat)

/-- `MerkleTree.verify`: fold the leaf through the proof with `_hash_pair`
and compare with the root. -/
def verify (K : Bytes → Bytes) (leaf : Bytes) (proof : List Bytes) (root : Bytes) : Bool :=
  proof.foldl (hash_pair K) leaf == root

theorem bytesLE_total : ∀ a b : Bytes, bytesLE a b = true ∨ bytesLE b a = true
  | [], _ => Or.inl rfl
  | _ :: _, [] => Or.inr rfl
  | a :: a2, b :: b2 => by
    by_cases hab : a < b
    · left; simp [bytesLE, hab]
    · by_cases hba : b < a
      · right; simp [bytesLE, hba]
      · have heq : a = b := by omega
        subst heq
        rcases bytesLE_total a2 b2 with h | h
        · left; simpa [bytesLE] using h
        · right; simpa [bytesLE] using h

theorem bytesLE_antisymm : ∀ a b : Bytes, bytesLE a b = true → bytesLE b a = true → a = b
  | [], [], _, _ => rfl
  | [], _ :: _, _, h => by simp [bytesLE] at h
  | _ :: _, [], h, _ => by simp [bytesLE] at h
  | a :: a2, b :: b2, h1, h2 => by
    have heq : a = b := by
      by_contra hne
      rcases Nat.lt_or_ge a b with hab | hab
      · simp [bytesLE, hab, Nat.not_lt_of_lt hab] at h2
      · have hba : b < a := by omega
        simp [bytesLE, hba, Nat.not_lt_of_lt hba] at h1
    subst heq
    have h1' : bytesLE a2 b2 = true := by simpa [bytesLE] using h1
    have h2' : bytesLE b2 a2 = true := by simpa [bytesLE] using h2
    rw [bytesLE_antisymm a2 b2 h1' h2']

/-- Sorting before hashing makes `_hash_pair` symmetric in its arguments. -/
theorem hash_pair_comm (K : Bytes → Bytes) (a b : Bytes) :
    hash_pair K a b = hash_pair K b a := by
  unfold hash_pair
  by_cases hab : bytesLE a b = true
  · by_cases hba : bytesLE b a = true
    · rw [bytesLE_antisymm a b hab hba]
    · simp [hab, hba]
  · rcases bytesLE_total a b with h | h
    · exact absurd h hab
    · simp [hab, h]

/-- Pointwise description of one build pass: node `j` of the next layer is
the sorted-pair hash of nodes `2j` and `2j+1` when both exist, and node
`2j` carried forward unchanged otherwise. -/
theorem nextLayer_getD (K : Bytes → Bytes) :
    ∀ (l : List Bytes) (j : Nat),
      (nextLayer K l).getD j [] =
        if 2 * j + 1 < l.length then
          hash_pair K (l.getD (2 * j) []) (l.getD (2 * j + 1) [])
        else l.getD (2 * j) []
  | [], j => by simp [nextLayer]
  | [a], j => by
    cases j with
    | zero => simp [nextLayer]
    | succ j =>
      have e : 2 * (j + 1) = 2 * j + 1 + 1 := by omega
      simp only [nextLayer, List.length_singleton, e, List.getD_cons_succ, List.getD_nil]
      rw [if_neg (by omega)]
  | a :: b :: rest, j => by
    cases j with
    | zero =>
      have e : 2 * 0 + 1 = 0 + 1 := by omega
      simp only [nextLayer, List.getD_cons_zero, List.length_cons, Nat.mul_zero, e,
        List.getD_cons_succ]
      rw [if_pos (by omega)]
    | succ j =>
      have ih := nextLayer_getD K rest j
      have e2 : 2 * (j + 1) = 2 * j + 1 + 1 := by omega
      have e3 : 2 * (j + 1) + 1 = 2 * j + 1 + 1 + 1 := by omega
      simp only [nextLayer, List.length_cons, e2, e3, List.getD_cons_succ]
      rw [ih]
      by_cases hc : 2 * j + 1 < rest.length
      · rw [if_pos hc, if_pos (by omega)]
      · rw [if_neg hc, if_neg (by omega)]

theorem buildLayers_small (K : Bytes → Bytes) {l : List Bytes} (h : l.length ≤ 1) :
    buildLayers K l = [l] := by
  unfold buildLayers
  cases hl : l.length with
  | zero => rfl
  | succ n =>
    have : n = 0 := by omega
    subst this
    simp [buildLayersF, hl]

theorem buildLayers_big (K : Bytes → Bytes) {l : List Bytes} (h : 1 < l.length) :
    buildLayers K l = l :: buildLayers K (nextLayer K l) := by
  unfold buildLayers
  cases hl : l.length with
  | zero => omega
  | succ n =>
    have hlen : (nextLayer K l).length = (l.length + 1) / 2 := nextLayer_length K l
    simp only [buildLayersF, if_neg (by omega : ¬ l.length ≤ 1)]
    rw [buildLayersF_congr K n (nextLayer K l).length (nextLayer K l) (by omega) le_rfl]

theorem buildLayers_ne_nil (K : Bytes → Bytes) (l : List Bytes) :
    buildLayers K l ≠ [] := by
  by_cases h : l.length ≤ 1
  · rw [buildLayers_small K h]; simp
  · rw [buildLayers_big K (by omega)]; simp

theorem getLastD_irrel {α : Type} : ∀ (l : List α), l ≠ [] → ∀ d1 d2 : α,
    l.getLastD d1 = l.getLastD d2
  | [], h, _, _ => absurd rfl h
  | a :: l, _, d1, d2 => by
    rw [List.getLastD_cons, List.getLastD_cons]

/-- Collapsing one layer does not change the root. -/
theorem rootOfLeaves_step (K : Bytes → Bytes) {l : List Bytes} (h : 1 < l.length) :
    rootOfLeaves K l = rootOfLeaves K (nextLayer K l) := by
  unfold rootOfLeaves
  rw [buildLayers_big K h, List.getLastD_cons,
    getLastD_irrel _ (buildLayers_ne_nil K (nextLayer K l)) l []]

/-- Folding a leaf through the one-layer proof step lands on its parent in
the next layer. -/
theorem foldStep (K : Bytes → Bytes) (l : List Bytes) (i : Nat) (hi : i < l.length) :
    List.foldl (hash_pair K) (l.getD i []) (proofStep l i) =
      (nextLayer K l).getD (i / 2) [] := by
  rw [nextLayer_getD]
  unfold proofStep
  by_cases hpar : i % 2 = 0
  · have h2 : 2 * (i / 2) = i := by omega
    by_cases hlt : i + 1 < l.length
    · rw [if_pos hpar, if_pos hlt]
      simp only [List.foldl_cons, List.foldl_nil]
      rw [h2, if_pos (by omega)]
    · rw [if_pos hpar, if_neg hlt]
      simp only [List.foldl_nil]
      rw [h2, if_neg (by omega)]
  · have h2 : 2 * (i / 2) = i - 1 := by omega
    have h3 : 2 * (i / 2) + 1 = i := by omega
    rw [if_neg hpar]
    simp only [List.foldl_cons, List.foldl_nil]
    rw [hash_pair_comm, h3, h2, if_pos (by omega)]

/-- Main Merkle invariant: folding leaf `i` through the collected proof
reproduces the root, for every hash function and every leaf list. -/
theorem foldProof (K : Bytes → Bytes) :
    ∀ (n : Nat) (l : List Bytes), l.length ≤ n → ∀ i, i < l.length →
      List.foldl (hash_pair K) (l.getD i [])
          (proofFold (buildLayers K l).dropLast i) = rootOfLeaves K l := by
  intro n
  induction n with
  | zero => intro l hl i hi; omega
  | succ n ih =>
    intro l hl i hi
    by_cases hsmall : l.length ≤ 1
    · rw [buildLayers_small K hsmall]
      simp only [List.dropLast_single, proofFold, List.foldl_nil]
      unfold rootOfLeaves
      rw [buildLayers_small K hsmall, List.getLastD_cons]
      have : i = 0 := by omega
      simp [this]
    · have hbig : 1 < l.length := by omega
      rw [buildLayers_big K hbig,
        List.dropLast_cons_of_ne_nil (buildLayers_ne_nil K (nextLayer K l))]
      show List.foldl (hash_pair K) (l.getD i [])
        (proofStep l i ++ proofFold (buildLayers K (nextLayer K l)).dropLast (i / 2)) = _
      rw [List.foldl_append, foldStep K l i hi]
      have hlen : (nextLayer K l).length = (l.length + 1) / 2 := nextLayer_length K l
      have hrec := ih (nextLayer K l) (by omega) (i / 2) (by omega)
      rw [hrec, rootOfLeaves_step K hbig]

/-- A small concrete stand-in for keccak-256, used only to instantiate the
parametric theorems at concrete inputs. -/
def demoHash (b : Bytes) : Bytes := [b.foldl (fun x y => (x * 31 + y) % 251) 7]

theorem buildLayers_getD_zero (K : Bytes → Bytes) (l : List Bytes) :
    (buildLayers K l).getD 0 [] = l := by
  by_cases h : l.length ≤ 1
  · rw [buildLayers_small K h]; rfl
  · rw [buildLayers_big K (by omega)]; rfl

/-- Each layer above the bottom is the pairing pass applied to the layer
below it. -/
theorem buildLayers_chain (K : Bytes → Bytes) :
    ∀ (n : Nat) (l : List Bytes), l.length ≤ n →
      ∀ k, k + 1 < (buildLayers K l).length →
        (buildLayers K l).getD (k + 1) [] =
          nextLayer K ((buildLayers K l).getD k []) := by
  intro n
  induction n with
  | zero =>
    intro l hl k hk
    rw [buildLayers_small K (by omega)] at hk
    simp at hk
  | succ n ih =>
    intro l hl k hk
    by_cases hs : l.length ≤ 1
    · rw [buildLayers_small K hs] at hk
      simp at hk
    · have hlen : (nextLayer K l).length = (l.length + 1) / 2 := nextLayer_length K l
      rw [buildLayers_big K (by omega)] at hk ⊢
      cases k with
      | zero =>
        simp only [List.getD_cons_succ, List.getD_cons_zero]
        rw [buildLayers_getD_zero]
      | succ k =>
        simp only [List.getD_cons_succ]
        exact ih (nextLayer K l) (by omega) k (by simpa using hk)

/-- The topmost layer holds exactly one node. -/
theorem buildLayers_last_length (K : Bytes → Bytes) :
    ∀ (n : Nat) (l : List Bytes), l.length ≤ n → l ≠ [] →
      ((buildLayers K l).getLastD []).length = 1 := by
  intro n
  induction n with
  | zero =>
    intro l hl hne
    cases l with
    | nil => exact absurd rfl hne
    | cons a rest => simp at hl
  | succ n ih =>
    intro l hl hne
    by_cases hs : l.length ≤ 1
    · rw [buildLayers_small K hs]
      have hpos : 0 < l.length := List.length_pos.mpr hne
      simp only [List.getLastD_cons, List.getLastD_nil]
      omega
    · have hlen : (nextLayer K l).length = (l.length + 1) / 2 := nextLayer_length K l
      rw [buildLayers_big K (by omega), List.getLastD_cons,
        getLastD_irrel _ (buildLayers_ne_nil K (nextLayer K l)) l []]
      refine ih (nextLayer K l) (by omega) ?_
      intro hcon
      have : (nextLayer K l).length = 0 := by rw [hcon]; rfl
      omega

/-- Claim C1: for every hash function, every leaf list and every index
accepted by `get_proof`, folding `leaves[i]` through the returned proof
with `_hash_pair` reproduces the root: `verify(leaves[i], get_proof(i),
root)` returns `True`. -/
theorem merkle_proof_correct (K : Bytes → Bytes) (l : List Bytes) (i : Int)
    (t : MerkleTree) (p : List Bytes)
    (ht : mkTree K l = .ok t) (hp : get_proof t i = .ok p) :
    verify K (l.getD i.toNat []) p (treeRoot t) = true := by
  unfold mkTree at ht
  by_cases he : l.isEmpty
  · rw [if_pos he] at ht
    exact absurd ht (by simp)
  · rw [if_neg he] at ht
    injection ht with ht
    have hl : t.leaves = l := by rw [← ht]
    have hlay : t.layers = buildLayers K l := by rw [← ht]
    unfold get_proof at hp
    by_cases hio : i < 0 ∨ (t.leaves.length : Int) ≤ i
    · rw [if_pos hio] at hp
      exact absurd hp (by simp)
    · rw [if_neg hio] at hp
      injection hp with hp
      rw [hl] at hio
      have hlen : i.toNat < l.length := by omega
      have hfold := foldProof K l.length l le_rfl i.toNat hlen
      unfold verify treeRoot
      rw [← hp, hlay, hfold]
      simp [rootOfLeaves]

theorem merkle_proof_correct_witness :
    mkTree demoHash [[1], [2], [3]] =
        .ok ⟨[[1], [2], [3]], [[[1], [2], [3]], [[234], [3]], [[26]]]⟩
  ∧ get_proof ⟨[[1], [2], [3]], [[[1], [2], [3]], [[234], [3]], [[26]]]⟩ 1 = .ok [[1], [3]]
  ∧ verify demoHash [2] [[1], [3]]
      (treeRoot ⟨[[1], [2], [3]], [[[1], [2], [3]], [[234], [3]], [[26]]]⟩) = true :=
  ⟨rfl, rfl,
    merkle_proof_correct demoHash [[1], [2], [3]] 1 _ _ rfl rfl⟩

/-- Claim C2: layers are built left-to-right in sorted-hashed pairs.  For
every hash function and non-empty leaf list: layer 0 is the input; each
higher layer is the pairing pass over the one below; node `j` of a pairing
pass is `_hash_pair(layer[2j], layer[2j+1])` when both exist and the
carried-forward `layer[2j]` otherwise; `_hash_pair` hashes the
concatenation in byte-lexicographic sorted order (hence is symmetric); and
the final layer holds exactly one node. -/
theorem merkle_layer_construction (K : Bytes → Bytes) (a : Bytes) (rest : List Bytes) :
    ((buildLayers K (a :: rest)).getD 0 [] = a :: rest)
  ∧ (∀ k, k + 1 < (buildLayers K (a :: rest)).length →
      (buildLayers K (a :: rest)).getD (k + 1) [] =
        nextLayer K ((buildLayers K (a :: rest)).getD k []))
  ∧ (∀ (L : List Bytes) (j : Nat), (nextLayer K L).getD j [] =
      if 2 * j + 1 < L.length then
        hash_pair K (L.getD (2 * j) []) (L.getD (2 * j + 1) [])
      else L.getD (2 * j) [])
  ∧ ((buildLayers K (a :: rest)).getLastD []).length = 1
  ∧ (∀ x y : Bytes, hash_pair K x y = K (if bytesLE x y then x ++ y else y ++ x))
  ∧ (∀ x y : Bytes, hash_pair K x y = hash_pair K y x) :=
  ⟨buildLayers_getD_zero K (a :: rest),
   buildLayers_chain K (a :: rest).length (a :: rest) le_rfl,
   nextLayer_getD K,
   buildLayers_last_length K (a :: rest).length (a :: rest) le_rfl (by simp),
   fun x y => by by_cases h : bytesLE x y <;> simp [hash_pair, h],
   hash_pair_comm K⟩

/-- Claim C4 counterexample: the two-leaf batches `[[0],[1]]` and
`[[1],[0]]` are non-identity reorderings of two distinct leaves, yet the
built trees have the same root (because `_hash_pair` sorts its inputs
before hashing). -/
theorem merkle_order_counterexample :
    rootOfLeaves demoHash [[0], [1]] = rootOfLeaves demoHash [[1], [0]]
  ∧ ([0] : Bytes) ≠ [1] := by
  constructor
  · decide
  · decide

/-- Claim C4 (amended): reordering the batch need not change the root:
swapping the two leaves of the first sibling pair always yields the same
root, for every hash function, because `_hash_pair` sorts the pair before
hashing. -/
theorem merkle_sibling_swap_root (K : Bytes → Bytes) (a b : Bytes) (rest : List Bytes) :
    rootOfLeaves K (a :: b :: rest) = rootOfLeaves K (b :: a :: rest) := by
  have hnext : nextLayer K (a :: b :: rest) = nextLayer K (b :: a :: rest) := by
    simp [nextLayer, hash_pair_comm]
  have h1 : 1 < (a :: b :: rest).length := by simp
  have h2 : 1 < (b :: a :: rest).length := by simp
  rw [rootOfLeaves_step K h1, rootOfLeaves_step K h2, hnext]

/-- Claim C8: construction fails with the empty-batch error exactly on an
empty leaf sequence and otherwise returns the built tree; `get_proof`
fails with the index-out-of-range error exactly when the index is outside
`[0, leafCount)` and otherwise returns the collected proof.  (The
embedding is pure, so a failing `get_proof` cannot change the tree.) -/
theorem merkle_error_conditions (K : Bytes → Bytes) (l : List Bytes) (i : Int) :
    (mkTree K l = .error .emptyBatch ↔ l = [])
  ∧ (l ≠ [] → mkTree K l = .ok ⟨l, buildLayers K l⟩)
  ∧ (∀ t : MerkleTree,
      get_proof t i = .error .indexOutOfRange ↔ i < 0 ∨ (t.leaves.length : Int) ≤ i)
  ∧ (∀ t : MerkleTree, 0 ≤ i ∧ i < (t.leaves.length : Int) →
      get_proof t i = .ok (proofFold t.layers.dropLast i.toNat)) := by
  refine ⟨?_, ?_, ?_, ?_⟩
  · unfold mkTree
    by_cases he : l.isEmpty
    · simp [he, List.isEmpty_iff.mp he]
    · rw [if_neg he]
      simp only [List.isEmpty_iff] at he
      simp [he]
  · intro hne
    unfold mkTree
    rw [if_neg (by simpa [List.isEmpty_iff] using hne)]
  · intro t
    unfold get_proof
    by_cases hio : i < 0 ∨ (t.leaves.length : Int) ≤ i
    · simp [hio]
    · simp [hio]
  · intro t hio
    unfold get_proof
    rw [if_neg (by omega)]

/-- Claim C9: a single-leaf tree has root equal to its sole leaf, an empty
proof for index 0, and the empty proof verifies against the root. -/
theorem merkle_single_leaf (K : Bytes → Bytes) (L : Bytes) :
    rootOfLeaves K [L] = L
  ∧ mkTree K [L] = .ok ⟨[L], [[L]]⟩
  ∧ get_proof ⟨[L], [[L]]⟩ 0 = .ok []
  ∧ verify K L [] (rootOfLeaves K [L]) = true := by
  have hroot : rootOfLeaves K [L] = L := by
    unfold rootOfLeaves
    rw [buildLayers_small K (by simp)]
    rfl
  refine ⟨hroot, ?_, rfl, ?_⟩
  · unfold mkTree
    rw [if_neg (by simp)]
    rw [show buildLayers K [L] = [[L]] from buildLayers_small K (by simp)]
  · simp [verify, hroot]

/-!
`optimizer.py`, modelled over the reals (the source computes with Python
floats; the claims about it are order/rounding facts that the real-valued
model makes exact).  Python's `//` on integers is floor division,
`Int.fdiv`.
-/

/-- `optimizer.price_to_tick`: `floor(log(price) / log(1.0001))`.
Modelled as a total function on ℝ; the source raises `ValueError` on
`price <= 0`, and every claim about it restricts to positive prices. -/
noncomputable def price_to_tick (price : ℝ) : Int :=
  ⌊Real.log price / Real.log 1.0001⌋

/-- `optimizer.round_tick`: `(tick // tick_spacing) * tick_spacing`. -/
def round_tick (tick : Int) (tick_spacing : Int) : Int :=
  tick.fdiv tick_spacing * tick_spacing

/-- `optimizer.compute_optimal_range`: clamp non-positive volatility to
0.01, take the price band `p * exp(±k·vol)`, convert to ticks rounded to
the spacing (upper side rounded up by one spacing), and widen a collapsed
range by one spacing.  (The source also computes `center_tick =
price_to_tick(current_price)`, which is unused in the result.)  This is
the total exact-real core of the computation; the float error paths the
source can take before returning (`OverflowError` from `math.exp`,
`ValueError` from `price_to_tick`) are modelled by
`compute_optimal_range_checked` below. -/
noncomputable def compute_optimal_range (current_price volatility k_multiplier : ℝ)
    (tick_spacing : Int) : Int × Int :=
  let vol : ℝ := if volatility ≤ 0 then 0.01 else volatility
  let price_lower := current_price * Real.exp (-(k_multiplier * vol))
  let price_upper := current_price * Real.exp (k_multiplier * vol)
  let tick_lower := round_tick (price_to_tick price_lower) tick_spacing
  let tick_upper := round_tick (price_to_tick price_upper) tick_spacing + tick_spacing
  if tick_lower ≥ tick_upper then (tick_lower, tick_lower + tick_spacing)
  else (tick_lower, tick_upper)

theorem round_tick_mono {a b s : Int} (hab : a ≤ b) (hs : 0 < s) :
    round_tick a s ≤ round_tick b s := by
  unfold round_tick
  rw [Int.fdiv_eq_ediv a (le_of_lt hs), Int.fdiv_eq_ediv b (le_of_lt hs)]
  exact mul_le_mul_of_nonneg_right (Int.ediv_le_ediv hs hab) (le_of_lt hs)

theorem log_base_pos : 0 < Real.log 1.0001 :=
  Real.log_pos (by norm_num)

theorem log_base_lt : Real.log 1.0001 < 1 / 10000 := by
  have h := Real.log_lt_sub_one_of_pos (show (0:ℝ) < 1.0001 by norm_num)
    (show (1.0001:ℝ) ≠ 1 by norm_num)
  norm_num at h ⊢
  linarith

theorem log_base_gt : 1 / 10001 < Real.log 1.0001 := by
  have h := Real.log_lt_sub_one_of_pos
    (show (0:ℝ) < (1.0001:ℝ)⁻¹ by norm_num)
    (show ((1.0001:ℝ)⁻¹ : ℝ) ≠ 1 by norm_num)
  rw [Real.log_inv] at h
  have he : ((1.0001:ℝ)⁻¹ : ℝ) = 10000 / 10001 := by norm_num
  rw [he] at h
  have : -Real.log 1.0001 < -(1 / 10001) := by linarith [h]
  linarith

/-- On positive inputs the clamp is inert, the two tick bounds never
collapse, and the result is the closed form used by the monotonicity
proofs. -/
theorem compute_optimal_range_closed (p v k : ℝ) (s : Int)
    (hp : 0 < p) (hs : 0 < s) (hv : 0 < v) (hk : 0 < k) :
    compute_optimal_range p v k s =
      (round_tick ⌊(Real.log p - k * v) / Real.log 1.0001⌋ s,
       round_tick ⌊(Real.log p + k * v) / Real.log 1.0001⌋ s + s) := by
  unfold compute_optimal_range price_to_tick
  have hnc : ¬ v ≤ 0 := not_le.mpr hv
  simp only [hnc, if_false]
  have hlow : Real.log (p * Real.exp (-(k * v))) = Real.log p - k * v := by
    rw [Real.log_mul (ne_of_gt hp) (Real.exp_ne_zero _), Real.log_exp]
    ring
  have hup : Real.log (p * Real.exp (k * v)) = Real.log p + k * v := by
    rw [Real.log_mul (ne_of_gt hp) (Real.exp_ne_zero _), Real.log_exp]
  rw [hlow, hup]
  have hle : round_tick ⌊(Real.log p - k * v) / Real.log 1.0001⌋ s ≤
      round_tick ⌊(Real.log p + k * v) / Real.log 1.0001⌋ s := by
    refine round_tick_mono (Int.floor_le_floor ?_) hs
    have hkv : 0 < k * v := mul_pos hk hv
    exact (div_le_div_iff_of_pos_right log_base_pos).mpr (by linarith)
  rw [if_neg (by omega)]

/-- The exact-real tick computation always yields a strictly ordered,
spacing-aligned pair (helper for the float-checked variant below). -/
theorem range_ticks_valid_core (p v k : ℝ) (s : Int) (hs : 0 < s) :
    (compute_optimal_range p v k s).1 < (compute_optimal_range p v k s).2
  ∧ s ∣ (compute_optimal_range p v k s).1
  ∧ s ∣ (compute_optimal_range p v k s).2 := by
  unfold compute_optimal_range
  set vol : ℝ := if v ≤ 0 then 0.01 else v with hvol
  set tl := round_tick (price_to_tick (p * Real.exp (-(k * vol)))) s with htl
  set tu := round_tick (price_to_tick (p * Real.exp (k * vol))) s + s with htu
  have hdl : s ∣ tl := by rw [htl]; exact dvd_mul_left s _
  have hdu : s ∣ tu := by rw [htu]; exact dvd_add (dvd_mul_left s _) dvd_rfl
  by_cases hcase : tl ≥ tu
  · rw [if_pos hcase]
    exact ⟨by omega, hdl, dvd_add hdl dvd_rfl⟩
  · rw [if_neg hcase]
    exact ⟨by omega, hdl, hdu⟩

theorem floor_low_001 : ⌊(-(2 * (1/100 : ℝ))) / Real.log 1.0001⌋ = -201 := by
  have hL0 := log_base_pos
  have hlt := log_base_lt
  have hgt := log_base_gt
  rw [Int.floor_eq_iff]
  constructor
  · rw [le_div_iff₀ hL0]
    push_cast
    nlinarith
  · rw [div_lt_iff₀ hL0]
    push_cast
    nlinarith

theorem floor_up_001 : ⌊(2 * (1/100 : ℝ)) / Real.log 1.0001⌋ = 200 := by
  have hL0 := log_base_pos
  have hlt := log_base_lt
  have hgt := log_base_gt
  rw [Int.floor_eq_iff]
  constructor
  · rw [le_div_iff₀ hL0]
    push_cast
    nlinarith
  · rw [div_lt_iff₀ hL0]
    push_cast
    nlinarith

theorem floor_low_0102 : ⌊(-(2 * (51/5000 : ℝ))) / Real.log 1.0001⌋ = -205 := by
  have hL0 := log_base_pos
  have hlt := log_base_lt
  have hgt := log_base_gt
  rw [Int.floor_eq_iff]
  constructor
  · rw [le_div_iff₀ hL0]
    push_cast
    nlinarith
  · rw [div_lt_iff₀ hL0]
    push_cast
    nlinarith

theorem floor_up_0102 : ⌊(2 * (51/5000 : ℝ)) / Real.log 1.0001⌋ = 204 := by
  have hL0 := log_base_pos
  have hlt := log_base_lt
  have hgt := log_base_gt
  rw [Int.floor_eq_iff]
  constructor
  · rw [le_div_iff₀ hL0]
    push_cast
    nlinarith
  · rw [div_lt_iff₀ hL0]
    push_cast
    nlinarith

/-- Evaluation helper at center price 1 and multiplier 2. -/
theorem cor_at_one (v : ℝ) (hv : 0 < v) (a b : Int)
    (ha : ⌊(-(2 * v)) / Real.log 1.0001⌋ = a)
    (hb : ⌊(2 * v) / Real.log 1.0001⌋ = b) :
    compute_optimal_range 1 v 2 60 = (round_tick a 60, round_tick b 60 + 60) := by
  rw [compute_optimal_range_closed 1 v 2 60 one_pos (by norm_num) hv (by norm_num)]
  have e1 : Real.log 1 - 2 * v = -(2 * v) := by rw [Real.log_one]; ring
  have e2 : Real.log 1 + 2 * v = 2 * v := by rw [Real.log_one]; ring
  rw [e1, e2, ha, hb]

/-- Claim C5 counterexample: with center price 1, multiplier 2 and spacing
60, raising the volatility strictly from 0.01 to 0.0102 leaves
`compute_optimal_range` unchanged (both give the range (-240, 240)), so
the width does not strictly increase. -/
theorem range_width_counterexample :
    compute_optimal_range 1 (1/100) 2 60 = compute_optimal_range 1 (51/5000) 2 60
  ∧ (1/100 : ℝ) < 51/5000 := by
  have h1 := cor_at_one (1/100) (by norm_num) (-201) 200 floor_low_001 floor_up_001
  have h2 := cor_at_one (51/5000) (by norm_num) (-205) 204 floor_low_0102 floor_up_0102
  constructor
  · rw [h1, h2]
    decide
  · norm_num

/-- Monotonicity workhorse: a larger `k·vol` product gives a width at
least as large. -/
theorem range_width_key (p : ℝ) (s : Int) (hp : 0 < p) (hs : 0 < s)
    (k1 v1 k2 v2 : ℝ) (hk1 : 0 < k1) (hv1 : 0 < v1) (hk2 : 0 < k2) (hv2 : 0 < v2)
    (hprod : k1 * v1 ≤ k2 * v2) :
    (compute_optimal_range p v1 k1 s).2 - (compute_optimal_range p v1 k1 s).1 ≤
    (compute_optimal_range p v2 k2 s).2 - (compute_optimal_range p v2 k2 s).1 := by
  rw [compute_optimal_range_closed p v1 k1 s hp hs hv1 hk1,
      compute_optimal_range_closed p v2 k2 s hp hs hv2 hk2]
  have hupper : round_tick ⌊(Real.log p + k1 * v1) / Real.log 1.0001⌋ s ≤
      round_tick ⌊(Real.log p + k2 * v2) / Real.log 1.0001⌋ s :=
    round_tick_mono (Int.floor_le_floor
      ((div_le_div_iff_of_pos_right log_base_pos).mpr (by linarith))) hs
  have hlower : round_tick ⌊(Real.log p - k2 * v2) / Real.log 1.0001⌋ s ≤
      round_tick ⌊(Real.log p - k1 * v1) / Real.log 1.0001⌋ s :=
    round_tick_mono (Int.floor_le_floor
      ((div_le_div_iff_of_pos_right log_base_pos).mpr (by linarith))) hs
  simp only
  omega

/-- Claim C5 (amended): over positive volatilities and multipliers the
returned width `tick_upper - tick_lower` is monotone *nondecreasing* in
the volatility (for fixed positive price and multiplier) and in the
multiplier (for fixed positive volatility); the tick grid makes strict
growth fail on plateaus (see the counterexample). -/
theorem range_width_monotone (p : ℝ) (s : Int) (hp : 0 < p) (hs : 0 < s) :
    (∀ k v1 v2 : ℝ, 0 < k → 0 < v1 → v1 ≤ v2 →
        (compute_optimal_range p v1 k s).2 - (compute_optimal_range p v1 k s).1 ≤
        (compute_optimal_range p v2 k s).2 - (compute_optimal_range p v2 k s).1)
  ∧ (∀ v k1 k2 : ℝ, 0 < v → 0 < k1 → k1 ≤ k2 →
        (compute_optimal_range p v k1 s).2 - (compute_optimal_range p v k1 s).1 ≤
        (compute_optimal_range p v k2 s).2 - (compute_optimal_range p v k2 s).1) := by
  constructor
  · intro k v1 v2 hk hv1 hv12
    exact range_width_key p s hp hs k v1 k v2 hk hv1 hk (by linarith)
      (by nlinarith)
  · intro v k1 k2 hv hk1 hk12
    exact range_width_key p s hp hs k1 v k2 v hk1 hv (by linarith) hv
      (by nlinarith)

theorem range_width_monotone_witness :
    (0:ℝ) < 1 ∧ (0:Int) < 60
  ∧ ((∀ k v1 v2 : ℝ, 0 < k → 0 < v1 → v1 ≤ v2 →
        (compute_optimal_range 1 v1 k 60).2 - (compute_optimal_range 1 v1 k 60).1 ≤
        (compute_optimal_range 1 v2 k 60).2 - (compute_optimal_range 1 v2 k 60).1)
    ∧ (∀ v k1 k2 : ℝ, 0 < v → 0 < k1 → k1 ≤ k2 →
        (compute_optimal_range 1 v k1 60).2 - (compute_optimal_range 1 v k1 60).1 ≤
        (compute_optimal_range 1 v k2 60).2 - (compute_optimal_range 1 v k2 60).1)) :=
  ⟨by norm_num, by norm_num, range_width_monotone 1 60 (by norm_num) (by norm_num)⟩

/-- The float error ways out of `compute_optimal_range`: `ValueError`
(raised by `price_to_tick` on a non-positive price) and `OverflowError`
(raised by `math.exp` when its result exceeds the largest IEEE-754
double). -/
inductive FloatError where
  | valueError : FloatError
  | overflowError : FloatError
deriving DecidableEq, Repr

/-- `math.exp(x)` raises `OverflowError` on IEEE-754 doubles once `x`
exceeds `log(DBL_MAX)` ≈ 709.7827128933840.  The model places the cutoff
at this rational, within 10⁻¹³ of the true double cutoff; every argument
exercised by the claims sits far from it. -/
noncomputable def expOverflowCutoff : ℝ := 709.7827128933840

/-- Below this value an IEEE-754 double computation rounds to `0.0`
(half the smallest positive subnormal, `2⁻¹⁰⁷⁵`); `price_to_tick` then
raises `ValueError` on the zero price. -/
noncomputable def floatZeroCutoff : ℝ := 1 / 2 ^ 1075

/-- The volatility clamp at the top of `compute_optimal_range`
(`if volatility <= 0: volatility = 0.01`). -/
noncomputable def clampVol (v : ℝ) : ℝ :=
  if v ≤ 0 then 0.01 else v

/-- `optimizer.compute_optimal_range` with the float error paths the
source can take before returning, in source order: `ValueError` from
`price_to_tick(current_price)` on a non-positive price; `OverflowError`
from `math.exp` once `|k·vol|` passes the double exponent range
(`optimizer.py:80-81`); `ValueError` from `price_to_tick` when a price
band underflows to `0.0`.  (Float overflow/underflow of the *product*
`current_price * exp(...)` at astronomically large or small prices is
not modelled; the claims' inputs are far from those regimes.)  When no
error path fires it returns the exact-real result. -/
noncomputable def compute_optimal_range_checked (current_price volatility k_multiplier : ℝ)
    (tick_spacing : Int) : Except FloatError (Int × Int) :=
  if current_price ≤ 0 then .error .valueError
  else if expOverflowCutoff < |k_multiplier * clampVol volatility| then .error .overflowError
  else if current_price * Real.exp (-(k_multiplier * clampVol volatility)) < floatZeroCutoff
        ∨ current_price * Real.exp (k_multiplier * clampVol volatility) < floatZeroCutoff then
    .error .valueError
  else .ok (compute_optimal_range current_price volatility k_multiplier tick_spacing)

/-- Claim C10 counterexample: at the positive price 1 and positive
spacing 60, volatility 400 with multiplier 2 drives `math.exp` past the
double range, so the source raises `OverflowError` at `optimizer.py:81`
instead of returning a pair — the claim's "for all volatility and
multiplier arguments" fails. -/
theorem range_overflow_counterexample :
    compute_optimal_range_checked 1 400 2 60 = .error .overflowError
  ∧ (0:ℝ) < 1 ∧ (0:Int) < 60 := by
  refine ⟨?_, by norm_num, by norm_num⟩
  unfold compute_optimal_range_checked
  rw [if_neg (by norm_num)]
  have hclamp : clampVol (400 : ℝ) = 400 := by
    unfold clampVol
    rw [if_neg (by norm_num)]
  have habs : expOverflowCutoff < |(2:ℝ) * 400| := by
    rw [abs_of_nonneg (by norm_num : (0:ℝ) ≤ 2 * 400)]
    unfold expOverflowCutoff
    norm_num
  rw [hclamp, if_pos habs]

/-- Claim C10 (amended): for every positive tick spacing, whenever the
float pipeline completes without raising (no `OverflowError` from
`math.exp`, no `ValueError` from `price_to_tick`), the returned pair is
strictly ordered and both ticks are multiples of the spacing — for any
price, volatility and multiplier that reach a return, including
non-positive volatility (clamped to 0.01). -/
theorem range_ticks_valid_checked (p v k : ℝ) (s : Int) (pair : Int × Int)
    (hs : 0 < s)
    (hok : compute_optimal_range_checked p v k s = .ok pair) :
    pair.1 < pair.2 ∧ s ∣ pair.1 ∧ s ∣ pair.2 := by
  unfold compute_optimal_range_checked at hok
  by_cases h1 : p ≤ 0
  · rw [if_pos h1] at hok
    exact absurd hok (by simp)
  · rw [if_neg h1] at hok
    by_cases h2 : expOverflowCutoff < |k * clampVol v|
    · rw [if_pos h2] at hok
      exact absurd hok (by simp)
    · rw [if_neg h2] at hok
      by_cases h3 : p * Real.exp (-(k * clampVol v)) < floatZeroCutoff
          ∨ p * Real.exp (k * clampVol v) < floatZeroCutoff
      · rw [if_pos h3] at hok
        exact absurd hok (by simp)
      · rw [if_neg h3] at hok
        injection hok with hok
        rw [← hok]
        exact range_ticks_valid_core p v k s hs

/-- `compute_optimal_range_checked` completing at a concrete benign
input: price 1, volatility 0.01, multiplier 2, spacing 60. -/
theorem checked_eval_001 :
    compute_optimal_range_checked 1 (1/100) 2 60 = .ok (-240, 240) := by
  unfold compute_optimal_range_checked
  rw [if_neg (by norm_num)]
  have hclamp : clampVol (1/100 : ℝ) = 1/100 := by
    unfold clampVol
    rw [if_neg (by norm_num)]
  rw [hclamp]
  have habs : ¬ expOverflowCutoff < |(2:ℝ) * (1/100)| := by
    rw [abs_of_nonneg (by norm_num : (0:ℝ) ≤ 2 * (1/100))]
    unfold expOverflowCutoff
    norm_num
  rw [if_neg habs]
  have hcut : floatZeroCutoff ≤ (49/50 : ℝ) := by
    unfold floatZeroCutoff
    norm_num
  have hexp1 : (49/50 : ℝ) ≤ Real.exp (-(2 * (1/100))) := by
    have h := Real.add_one_le_exp (-(2 * (1/100 : ℝ)))
    linarith
  have hexp2 : (49/50 : ℝ) ≤ Real.exp (2 * (1/100)) := by
    have h := Real.add_one_le_exp (2 * (1/100 : ℝ))
    linarith
  rw [if_neg (by push_neg; constructor <;> linarith)]
  rw [cor_at_one (1/100) (by norm_num) (-201) 200 floor_low_001 floor_up_001]
  have hlo : round_tick (-201) 60 = -240 := by decide
  have hhi : round_tick 200 60 + 60 = 240 := by decide
  rw [hlo, hhi]

theorem range_ticks_valid_checked_witness :
    (0:Int) < 60
  ∧ compute_optimal_range_checked 1 (1/100) 2 60 = .ok (-240, 240)
  ∧ (((-240:Int), (240:Int)).1 < ((-240:Int), (240:Int)).2
     ∧ (60:Int) ∣ ((-240:Int), (240:Int)).1
     ∧ (60:Int) ∣ ((-240:Int), (240:Int)).2) :=
  ⟨by norm_num, checked_eval_001,
    range_ticks_valid_checked 1 (1/100) 2 60 (-240, 240) (by norm_num) checked_eval_001⟩

/-!
`merkle.py`'s typed-data leaf computation (`_hash_pool_key`,
`compute_leaf`), over an ABI-encoding model: `eth_abi.encode` on the
static types used here concatenates one 32-byte head word per value.
-/

/-- Big-endian fixed-width byte encoding of a natural number. -/
def toBytesBE (w x : Nat) : Bytes :=
  (List.range w).map (fun i => x / 256 ^ (w - 1 - i) % 256)

theorem toBytesBE_length (w x : Nat) : (toBytesBE w x).length = w := by
  simp [toBytesBE]

/-- A 32-byte two's-complement (sign-extended) big-endian word for a
signed `int24` value, as `eth_abi` encodes it. -/
def int24Word (i : Int) : Bytes :=
  toBytesBE 32 (i % (2:Int) ^ 256).toNat

/-- The argument values `merkle.py` passes to `eth_abi.encode`, tagged
with their ABI type strings. -/
inductive ABIValue where
  | bytes32V (b : Bytes) : ABIValue
  | addressV (x : Nat) : ABIValue
  | uint24V (x : Nat) : ABIValue
  | int24V (x : Int) : ABIValue
  | uint256V (x : Nat) : ABIValue

/-- The 32-byte head word of one static value (`bytes32` is used as-is;
`address`/`uint24`/`uint256` are zero-extended big-endian; `int24` is
sign-extended). -/
def abiWord : ABIValue → Bytes
  | .bytes32V b => b
  | .addressV x => toBytesBE 32 x
  | .uint24V x => toBytesBE 32 x
  | .int24V x => int24Word x
  | .uint256V x => toBytesBE 32 x

/-- `eth_abi.encode` on a tuple of static types: the concatenation of the
32-byte head words. -/
def abiEncode (vs : List ABIValue) : Bytes :=
  (vs.map abiWord).flatten

/-- ASCII bytes of a type-signature string (`Web3.keccak(text=...)`
UTF-8-encodes it; all characters here are ASCII). -/
def strBytes (s : String) : Bytes :=
  s.toList.map Char.toNat

/-- The `PoolKey` type-signature string of `_hash_pool_key`. -/
def poolKeyTypeString : String :=
  "PoolKey(address currency0,address currency1,uint24 fee,int24 tickSpacing,address hooks)"

/-- The combined type-signature string literal of `compute_leaf`. -/
def lpIntentTypeString : String :=
  "LPIntent(address user,PoolKey pool,int24 tickLower,int24 tickUpper,uint256 amount,uint256 nonce,uint256 deadline)PoolKey(address currency0,address currency1,uint24 fee,int24 tickSpacing,address hooks)"

/-- The `LPIntent` type signature alone (the spec's form: the combined
string is this followed immediately by the PoolKey signature). -/
def lpIntentSigString : String :=
  "LPIntent(address user,PoolKey pool,int24 tickLower,int24 tickUpper,uint256 amount,uint256 nonce,uint256 deadline)"

/-- `types.PoolKey` (addresses modelled as their 160-bit numeric value). -/
structure PoolKey where
  currency0 : Nat
  currency1 : Nat
  fee : Nat
  tick_spacing : Int
  hooks : Nat
deriving DecidableEq, Repr

/-- `types.LPIntent`. -/
structure LPIntent where
  user : Nat
  pool : PoolKey
  tick_lower : Int
  tick_upper : Int
  amount : Nat
  nonce : Nat
  deadline : Nat
deriving DecidableEq, Repr

/-- `merkle._hash_pool_key`: keccak of the ABI encoding of the PoolKey
type-hash and the five fields. -/
def hash_pool_key (K : Bytes → Bytes) (pool : PoolKey) : Bytes :=
  K (abiEncode
    [.bytes32V (K (strBytes poolKeyTypeString)),
     .addressV pool.currency0,
     .addressV pool.currency1,
     .uint24V pool.fee,
     .int24V pool.tick_spacing,
     .addressV pool.hooks])

/-- `merkle.compute_leaf`: keccak of the ABI encoding of the LPIntent
type-hash, the user, the PoolKey struct hash and the scalar fields. -/
def compute_leaf (K : Bytes → Bytes) (intent : LPIntent) : Bytes :=
  K (abiEncode
    [.bytes32V (K (strBytes lpIntentTypeString)),
     .addressV intent.user,
     .bytes32V (hash_pool_key K intent.pool),
     .int24V intent.tick_lower,
     .int24V intent.tick_upper,
     .uint256V intent.amount,
     .uint256V intent.nonce,
     .uint256V intent.deadline])

set_option maxRecDepth 4000 in
/-- Claim C3: `compute_leaf` is the hash of the structured encoding that
combines the fixed type-hash constant — the hash of the LPIntent
type-signature string immediately followed by the PoolKey type-signature
string — with the user address, the 32-byte PoolKey struct hash (not the
raw pool fields), tickLower, tickUpper, amount, nonce and deadline, each
as a fixed 32-byte word. -/
theorem compute_leaf_structure (K : Bytes → Bytes) (intent : LPIntent) :
    compute_leaf K intent =
      K (K (strBytes (lpIntentSigString ++ poolKeyTypeString))
        ++ toBytesBE 32 intent.user
        ++ hash_pool_key K intent.pool
        ++ int24Word intent.tick_lower
        ++ int24Word intent.tick_upper
        ++ toBytesBE 32 intent.amount
        ++ toBytesBE 32 intent.nonce
        ++ toBytesBE 32 intent.deadline)
  ∧ lpIntentTypeString = lpIntentSigString ++ poolKeyTypeString := by
  have hstr : lpIntentTypeString = lpIntentSigString ++ poolKeyTypeString := by decide
  refine ⟨?_, hstr⟩
  unfold compute_leaf abiEncode
  rw [hstr]
  simp [abiWord, List.flatten, List.append_assoc]

/-!
`signer.py`.  The digest construction (`encode_typed_data`) and the ECDSA
primitive (`Account.sign_message` / `Account.recover_message`) live in
the external `eth_account` dependency; they are modelled from the spec
(§4.1 `buildSigningPayload`, §4.2 `SignatureService`).  The signature
*packing* at the end of `sign_intent` is source code of `signer.py` and
is embedded directly.
-/

/-- The order of the secp256k1 group ("the curve used by the target
chain"). -/
def secpN : Nat := 0xFFFFFFFFFFFFFFFFFFFFFFFFFFFFFFFEBAAEDCE6AF48A03BBFD25E8CD0364141

/-- ECDSA scalars mod the secp256k1 group order. -/
abbrev Scalar := ZMod secpN

/-- Big-endian interpretation of a byte string as a number. -/
def natOfBytesBE (b : Bytes) : Nat :=
  b.foldl (fun acc x => acc * 256 + x) 0

/-- The EIP-712 domain type signature of `EIP712_TYPES` in `types.py`. -/
def domainTypeString : String :=
  "EIP712Domain(string name,string version,uint256 chainId,address verifyingContract)"

/-- Modelled from the spec: the domain separator built by
`encode_typed_data` (external `eth_account` code) from
`build_eip712_message`'s domain — the domain type-hash with the hashed
protocol name "PrivBatch", hashed version "1", chain id and verifying
contract, ABI-encoded and hashed. -/
def domainSeparator (K : Bytes → Bytes) (chainId vc : Nat) : Bytes :=
  K (abiEncode
    [.bytes32V (K (strBytes domainTypeString)),
     .bytes32V (K (strBytes "PrivBatch")),
     .bytes32V (K (strBytes "1")),
     .uint256V chainId,
     .addressV vc])

/-- Modelled from the spec: the final typed-data digest (external
`eth_account` code): the two-byte `0x19 0x01` header, the domain
separator and the struct hash of the intent, hashed once more. -/
def signingDigest (K : Bytes → Bytes) (intent : LPIntent) (chainId vc : Nat) : Bytes :=
  K ([0x19, 0x01] ++ domainSeparator K chainId vc ++ compute_leaf K intent)

/-- The digest reduced mod the group order, as ECDSA consumes it. -/
def digestScalar (K : Bytes → Bytes) (intent : LPIntent) (chainId vc : Nat) : Scalar :=
  (natOfBytesBE (signingDigest K intent chainId vc) : Scalar)

/-- Modelled from the spec: ECDSA signing (external `eth_account` code)
over an abstract model of the secp256k1 group: an additive commutative
group `P` with a `ZMod n`-action (the real point group has exponent `n`),
generator `g` and x-coordinate map `xc`.  With nonce `k`, digest `z` and
key `d`: `r = x(k·G) mod n`, `s = k⁻¹(z + r·d) mod n`. -/
def ecdsa_sign {P : Type} [AddCommGroup P] [Module Scalar P]
    (xc : P → Scalar) (g : P) (d k z : Scalar) : Scalar × Scalar :=
  (xc (k • g), k⁻¹ * (z + xc (k • g) * d))

/-- Modelled from the spec: ECDSA public-key recovery (external
`eth_account` code): `Q = r⁻¹(s·R − z·G)` where `R` is the nonce point
reconstructed from `(r, v)` (the reconstruction itself is not modelled:
the recovered point is passed explicitly). -/
def ecdsa_recover {P : Type} [AddCommGroup P] [Module Scalar P]
    (g : P) (z r s : Scalar) (R : P) : P :=
  r⁻¹ • (s • R - z • g)

/-- `signer.sign_intent`: digest the intent, ECDSA-sign it, and return
`r.to_bytes(32, "big") + s.to_bytes(32, "big") + v.to_bytes(1, "big")`
(the nonce `k` and the recovery byte `v` are produced inside
`eth_account` and enter the model as parameters). -/
def sign_intent {P : Type} [AddCommGroup P] [Module Scalar P]
    (g : P) (xc : P → Scalar) (K : Bytes → Bytes) (nonceK : Scalar) (vByte : Nat)
    (d : Scalar) (intent : LPIntent) (chainId vc : Nat) : Bytes :=
  toBytesBE 32 ((ecdsa_sign xc g d nonceK (digestScalar K intent chainId vc)).1).val
  ++ toBytesBE 32 ((ecdsa_sign xc g d nonceK (digestScalar K intent chainId vc)).2).val
  ++ toBytesBE 1 vByte

/-- The ECDSA algebra: recovering from a signature produced with an
invertible nonce and an invertible `r` returns the signer's public
point. -/
theorem ecdsa_roundtrip {P : Type} [AddCommGroup P] [Module Scalar P]
    (g : P) (xc : P → Scalar) (d k z : Scalar)
    (hk : IsUnit k) (hr : IsUnit (xc (k • g))) :
    ecdsa_recover g z (ecdsa_sign xc g d k z).1 (ecdsa_sign xc g d k z).2 (k • g)
      = d • g := by
  unfold ecdsa_sign ecdsa_recover
  simp only
  have h1 : (k⁻¹ * (z + xc (k • g) * d)) • (k • g) = (z + xc (k • g) * d) • g := by
    rw [smul_smul]
    congr 1
    rw [mul_comm k⁻¹ (z + xc (k • g) * d), mul_assoc, ZMod.inv_mul_of_unit k hk, mul_one]
  rw [h1, ← sub_smul, add_sub_cancel_left, smul_smul, ← mul_assoc,
    ZMod.inv_mul_of_unit (xc (k • g)) hr, one_mul]

/-- Claim C6: for every key, intent, chain id and verifying contract,
signing the typed-data digest and recovering from that digest and the
produced signature yields the address derived from the key (the address
function applied to the key's public point `d·G`).  Spec-modelled: the
ECDSA core is `eth_account` code, outside `src/`. -/
theorem sign_recover_roundtrip {P : Type} [AddCommGroup P] [Module Scalar P]
    (g : P) (xc : P → Scalar) (addr : P → Nat) (K : Bytes → Bytes)
    (d k : Scalar) (intent : LPIntent) (chainId vc : Nat)
    (hk : IsUnit k) (hr : IsUnit (xc (k • g))) :
    addr (ecdsa_recover g (digestScalar K intent chainId vc)
        (ecdsa_sign xc g d k (digestScalar K intent chainId vc)).1
        (ecdsa_sign xc g d k (digestScalar K intent chainId vc)).2
        (k • g))
      = addr (d • g) := by
  rw [ecdsa_roundtrip g xc d k (digestScalar K intent chainId vc) hk hr]

/-- A concrete intent used to instantiate theorems (mirrors the fixture
in `tests/test_merkle.py`). -/
def demoIntent : LPIntent :=
  { user := 1,
    pool := { currency0 := 0x1111, currency1 := 0x2222, fee := 3000,
              tick_spacing := 60, hooks := 0 },
    tick_lower := -887220,
    tick_upper := 887220,
    amount := 100,
    nonce := 0,
    deadline := 99999999999 }

theorem sign_recover_roundtrip_witness :
    IsUnit (-1 : Scalar)
  ∧ IsUnit (id ((-1 : Scalar) • (1 : Scalar)))
  ∧ ZMod.val (ecdsa_recover (1 : Scalar) (digestScalar demoHash demoIntent 1 0)
      (ecdsa_sign id (1 : Scalar) 2 (-1) (digestScalar demoHash demoIntent 1 0)).1
      (ecdsa_sign id (1 : Scalar) 2 (-1) (digestScalar demoHash demoIntent 1 0)).2
      ((-1 : Scalar) • (1 : Scalar)))
      = ZMod.val ((2 : Scalar) • (1 : Scalar)) := by
  have hk : IsUnit (-1 : Scalar) := isUnit_one.neg
  have hr : IsUnit (id ((-1 : Scalar) • (1 : Scalar))) := by
    simp [smul_eq_mul]
  exact ⟨hk, hr,
    sign_recover_roundtrip (1 : Scalar) id ZMod.val demoHash 2 (-1) demoIntent 1 0 hk hr⟩

/-- Claim C7: every signature `sign_intent` returns is exactly 65 bytes —
the 32-byte big-endian `r`, then the 32-byte big-endian `s`, then the
single byte `v`, concatenated in that order with no other encoding. -/
theorem signature_packing {P : Type} [AddCommGroup P] [Module Scalar P]
    (g : P) (xc : P → Scalar) (K : Bytes → Bytes) (nonceK : Scalar) (vByte : Nat)
    (d : Scalar) (intent : LPIntent) (chainId vc : Nat)
    (hv : vByte < 256) :
    (sign_intent g xc K nonceK vByte d intent chainId vc).length = 65
  ∧ sign_intent g xc K nonceK vByte d intent chainId vc =
      toBytesBE 32 ((ecdsa_sign xc g d nonceK (digestScalar K intent chainId vc)).1).val
      ++ toBytesBE 32 ((ecdsa_sign xc g d nonceK (digestScalar K intent chainId vc)).2).val
      ++ [vByte]
  ∧ (toBytesBE 32 ((ecdsa_sign xc g d nonceK (digestScalar K intent chainId vc)).1).val).length = 32
  ∧ (toBytesBE 32 ((ecdsa_sign xc g d nonceK (digestScalar K intent chainId vc)).2).val).length = 32
  ∧ (sign_intent g xc K nonceK vByte d intent chainId vc).drop 64 = [vByte] := by
  have hv1 : toBytesBE 1 vByte = [vByte] := by
    simp [toBytesBE, Nat.mod_eq_of_lt hv]
  refine ⟨?_, ?_, toBytesBE_length 32 _, toBytesBE_length 32 _, ?_⟩
  · simp [sign_intent, toBytesBE_length, hv1]
  · rw [sign_intent, hv1]
  · rw [sign_intent, hv1]
    refine List.drop_left' ?_
    simp [toBytesBE_length]

theorem signature_packing_witness :
    27 < 256
  ∧ ((sign_intent (1 : Scalar) id demoHash 3 27 2 demoIntent 1 0).length = 65
    ∧ sign_intent (1 : Scalar) id demoHash 3 27 2 demoIntent 1 0 =
        toBytesBE 32 ((ecdsa_sign id (1 : Scalar) 2 3 (digestScalar demoHash demoIntent 1 0)).1).val
        ++ toBytesBE 32 ((ecdsa_sign id (1 : Scalar) 2 3 (digestScalar demoHash demoIntent 1 0)).2).val
        ++ [27]
    ∧ (toBytesBE 32 ((ecdsa_sign id (1 : Scalar) 2 3 (digestScalar demoHash demoIntent 1 0)).1).val).length = 32
    ∧ (toBytesBE 32 ((ecdsa_sign id (1 : Scalar) 2 3 (digestScalar demoHash demoIntent 1 0)).2).val).length = 32
    ∧ (sign_intent (1 : Scalar) id demoHash 3 27 2 demoIntent 1 0).drop 64 = [27]) :=
  ⟨by norm_num, signature_packing (1 : Scalar) id demoHash 3 27 2 demoIntent 1 0 (by norm_num)⟩

end PrivBatch
